import Mathlib

/-!
# Verification of the simpledb block-management layer

Shallow embedding of `src/main.go`: a fixed-size `Page` with typed
accessors over a byte buffer, a `BlockID` value, and a `FileManager`
that persists pages as fixed-size blocks inside flat files.

Modelling conventions:
* A byte is a `Nat`; every byte produced by the Go code is `< 256`
  (Go's `byte` type), and every byte written by the model is reduced
  `% 256` exactly where Go's `byte(...)` conversions occur.
* Go's 32-bit machine integers are modelled as `Int` with explicit
  reduction modulo `2 ^ 32` at each conversion point (`u32` models
  `uint32(n)`, `toInt32` models `int32(u)`).
* A Go runtime panic (out-of-range slice index, `make` with a negative
  size, short read) is modelled as the `none` / error outcome: the
  program has no `recover`, so a panic aborts before any out-of-range
  memory access happens.
* The filesystem is modelled as a map from filename to file contents
  (`none` = the file does not exist); `os.Create` produces an empty
  file, seek-past-end followed by a write zero-fills the hole, exactly
  as POSIX does.
-/

/-- `uint32(n)` for a Go `int32` value `n`: the representative of
`n mod 2 ^ 32` in `[0, 2 ^ 32)`. -/
def u32 (n : Int) : Nat := (n % (2 ^ 32 : Int)).toNat

/-- `int32(u)`: interpret the low 32 bits of `u` as a two's-complement
signed integer. -/
def toInt32 (u : Nat) : Int :=
  if u % 2 ^ 32 < 2 ^ 31 then ((u % 2 ^ 32 : Nat) : Int)
  else ((u % 2 ^ 32 : Nat) : Int) - 2 ^ 32

/-- Go's `int32(k)` applied to a nonnegative length `k` (the
`int32(len(bs))` conversions in `setBytes` and `maxLength`). -/
def int32ofNat (k : Nat) : Int := toInt32 k

namespace Page

/-- `Page.setInt` (src/main.go:44): `binary.BigEndian.PutUint32(p.buf[offset:], uint32(n))`.
The slice expression panics when `offset` is negative or past the end of
the buffer, and `PutUint32` bounds-checks `b[3]` before writing any
byte; both panics are modelled as `none`.  On success the four bytes of
`uint32(n)` are stored big-endian at `offset`. -/
def setInt (o : Int) (n : Int) (buf : List Nat) : Option (List Nat) :=
  if 0 ≤ o ∧ o + 4 ≤ (buf.length : Int) then
    let u := u32 n
    let k := o.toNat
    some ((((buf.set k (u / 2 ^ 24 % 256)).set (k + 1) (u / 2 ^ 16 % 256)).set
        (k + 2) (u / 2 ^ 8 % 256)).set (k + 3) (u % 256))
  else none

/-- `Page.getInt` (src/main.go:48): `int32(binary.BigEndian.Uint32(p.buf[offset:]))`.
Out-of-range access panics (`none`); otherwise the four bytes at
`offset` are combined big-endian and reinterpreted as a signed 32-bit
integer. -/
def getInt (o : Int) (buf : List Nat) : Option Int :=
  if 0 ≤ o ∧ o + 4 ≤ (buf.length : Int) then
    let k := o.toNat
    some (toInt32 (buf.getD k 0 * 2 ^ 24 + buf.getD (k + 1) 0 * 2 ^ 16 +
      buf.getD (k + 2) 0 * 2 ^ 8 + buf.getD (k + 3) 0))
  else none

/-- `Page.setBytes` (src/main.go:54): writes the 4-byte big-endian
length `int32(len(bs))`, then `copy(p.buf[start:end], bs)` with
`start = offset+4`, `end = start+n`.  The slice expression panics when
`end < start` (negative wrapped length) or `end` exceeds the buffer;
`copy` transfers `min(n, len(bs))` bytes, which is `n` after the
`int32` conversion. -/
def setBytes (o : Int) (bs : List Nat) (buf : List Nat) : Option (List Nat) :=
  let n := int32ofNat bs.length
  (setInt o n buf).bind fun buf1 =>
    if 0 ≤ n ∧ o + 4 + n ≤ (buf.length : Int) then
      some (buf1.take (o.toNat + 4) ++ bs.take n.toNat ++
        buf1.drop (o.toNat + 4 + n.toNat))
    else none

/-- `Page.getBytes` (src/main.go:72): reads the 4-byte length `n` at
`offset`, allocates `make([]byte, n)` (panics when `n < 0`), and copies
`p.buf[start:end]` into it (the slice panics when `end` exceeds the
buffer).  Returns a fresh copy of the `n` payload bytes. -/
def getBytes (o : Int) (buf : List Nat) : Option (List Nat) :=
  (getInt o buf).bind fun n =>
    if 0 ≤ n ∧ o + 4 + n ≤ (buf.length : Int) then
      some ((buf.drop (o.toNat + 4)).take n.toNat)
    else none

/-- `maxLength` (src/main.go:67): `int32size + int32(len(s))` with Go's
wrapping 32-bit arithmetic; equal to `4 + len s` whenever that fits in
an `int32`. -/
def maxLength (s : List Nat) : Int := toInt32 (4 + s.length)

/-- `Page.setString` (src/main.go:84): `p.setBytes(offset, []byte(s))`;
a string is its byte sequence (one byte per character). -/
def setString (o : Int) (s : List Nat) (buf : List Nat) : Option (List Nat) :=
  setBytes o s buf

/-- `Page.getString` (src/main.go:88): `string(p.getBytes(offset))`. -/
def getString (o : Int) (buf : List Nat) : Option (List Nat) :=
  getBytes o buf

end Page

/-- `BlockID` (src/main.go:10): a block is addressed by filename and
block number (non-negative per the data model). -/
structure BlockID where
  filename : String
  blknum : Nat
deriving DecidableEq

/-- The state owned by a `FileManager` (src/main.go:92) together with
the directory's filesystem contents it operates on: the fixed block
size, the set of filenames with a cached open handle (`fm.files`), and
each file's byte contents (`none` = no such file in the directory). -/
structure FMState where
  blocksize : Nat
  openFiles : List String
  contents : String → Option (List Nat)

/-- Pointwise update of a contents map. -/
def fupdate (m : String → Option (List Nat)) (k : String) (v : Option (List Nat)) :
    String → Option (List Nat) :=
  fun g => if g = k then v else m g

namespace FileManager

/-- `FileManager.getFile` (src/main.go:181): return the cached handle
when one exists; otherwise `os.Create` the file — which CREATES OR
TRUNCATES it, so its contents become empty — and cache the handle. -/
def getFile (f : String) (s : FMState) : FMState :=
  if f ∈ s.openFiles then s
  else ⟨s.blocksize, f :: s.openFiles, fupdate s.contents f (some [])⟩

/-- One positional file write, POSIX semantics: `Seek(off, 0)` then
`Write(d)`.  Writing past the current end of file zero-fills the gap
(a hole), then the data overwrites/extends from `off`. -/
def fileWriteAt (c : List Nat) (off : Nat) (d : List Nat) : List Nat :=
  c.take off ++ List.replicate (off - c.length) 0 ++ d ++ c.drop (off + d.length)

/-- `FileManager.length` (src/main.go:171): `int(stat.Size()) / fm.blocksize`,
integer division.  Note it calls `getFile` first (which may create or
truncate the file), and it has no error outcome for a non-block-aligned
size: the remainder is discarded.  `blocksize` is assumed positive (Go
would panic on division by zero). -/
def length (f : String) (s : FMState) : Nat × FMState :=
  let s1 := getFile f s
  (((s1.contents f).getD []).length / s1.blocksize, s1)

/-- `FileManager.read` (src/main.go:127): seek to
`blknum * blocksize` and read `len(p.buf)` bytes into the page.  A
short read (fewer than `len(p.buf)` bytes available) panics — modelled
as `none`; on success the page buffer becomes exactly the block's
bytes.  `plen` is the length of the destination page's buffer. -/
def read (blk : BlockID) (plen : Nat) (s : FMState) : Option (List Nat) × FMState :=
  let s1 := getFile blk.filename s
  let c := (s1.contents blk.filename).getD []
  let off := blk.blknum * s1.blocksize
  if off + plen ≤ c.length then (some ((c.drop off).take plen), s1)
  else (none, s1)

/-- `FileManager.write` (src/main.go:140): seek to
`blknum * blocksize` and write the page's whole buffer. -/
def write (blk : BlockID) (pbuf : List Nat) (s : FMState) : FMState :=
  let s1 := getFile blk.filename s
  let c := (s1.contents blk.filename).getD []
  let c' := fileWriteAt c (blk.blknum * s1.blocksize) pbuf
  ⟨s1.blocksize, s1.openFiles, fupdate s1.contents blk.filename (some c')⟩

/-- `FileManager.append` (src/main.go:155): compute the new block
number as `fm.length(filename)`, then write one block of zero bytes at
offset `newblknum * blocksize` and return the new `BlockID`. -/
def append (f : String) (s : FMState) : BlockID × FMState :=
  let p := FileManager.length f s
  let blk : BlockID := ⟨f, p.1⟩
  let s1 := getFile f p.2
  let c := (s1.contents f).getD []
  let c' := fileWriteAt c (blk.blknum * s1.blocksize) (List.replicate s1.blocksize 0)
  (blk, ⟨s1.blocksize, s1.openFiles, fupdate s1.contents f (some c')⟩)

end FileManager

/-- Failure modes of `os.Open` as `newFileManager` distinguishes them. -/
inductive OpenErr | notExist | otherwise
deriving DecidableEq

/-- Failure modes of `os.Mkdir` as `newFileManager` distinguishes them. -/
inductive MkdirErr | alreadyExists | otherwise
deriving DecidableEq

/-- The manager value `newFileManager` returns: the directory handle
(`none` models a nil `*os.File`), the block size, and the initially
empty handle map. -/
structure FMInit where
  directory : Option Unit
  blocksize : Nat
  files : List String
deriving DecidableEq

/-- `newFileManager` (src/main.go:98), with the outcomes of its three
filesystem calls as parameters: `open1` is the first `os.Open(dir)`,
`mkdirRes` is `os.Mkdir(dir, os.ModePerm)`, and `open2` is the second
`os.Open(dir)` after a create.  A panic is `Except.error`.  Note the
code discards the second open's error (`directory, _ = os.Open(dir)`),
so `open2 = none` still yields an `ok` manager whose directory handle
is nil. -/
def newFileManager (open1 : Except OpenErr Unit) (mkdirRes : Except MkdirErr Unit)
    (open2 : Option Unit) (blocksize : Nat) : Except String FMInit :=
  match open1 with
  | .error .notExist =>
    match mkdirRes with
    | .error .otherwise => .error "panic: mkdir failed"
    | _ => .ok { directory := open2, blocksize := blocksize, files := [] }
  | .error .otherwise => .error "panic: open failed"
  | .ok h => .ok { directory := some h, blocksize := blocksize, files := [] }

/-! ## Helper lemmas: bytes, 32-bit arithmetic, list indexing -/

lemma getD_set_self (l : List Nat) (i : Nat) (a : Nat) (h : i < l.length) :
    (l.set i a).getD i 0 = a := by
  simp [List.getD_eq_getElem?_getD, List.getElem?_set_self h]

lemma getD_set_ne (l : List Nat) (i j : Nat) (a : Nat) (h : i ≠ j) :
    (l.set i a).getD j 0 = l.getD j 0 := by
  simp [List.getD_eq_getElem?_getD, List.getElem?_set_ne h]

lemma getD_append_left (A rest : List Nat) (j : Nat) (h : j < A.length) :
    (A ++ rest).getD j 0 = A.getD j 0 := by
  simp [List.getD_eq_getElem?_getD, List.getElem?_append, h]

lemma getD_take (l : List Nat) (n j : Nat) (h : j < n) :
    (l.take n).getD j 0 = l.getD j 0 := by
  simp [List.getD_eq_getElem?_getD, List.getElem?_take, h]

lemma getD_drop (l : List Nat) (n j : Nat) :
    (l.drop n).getD j 0 = l.getD (n + j) 0 := by
  simp [List.getD_eq_getElem?_getD, List.getElem?_drop]

lemma bytes_recombine (u : Nat) (h : u < 2 ^ 32) :
    (u / 2 ^ 24 % 256) * 2 ^ 24 + (u / 2 ^ 16 % 256) * 2 ^ 16 +
      (u / 2 ^ 8 % 256) * 2 ^ 8 + u % 256 = u := by omega

lemma u32_lt (n : Int) : u32 n < 2 ^ 32 := by unfold u32; omega

lemma toInt32_u32 (n : Int) (h1 : -(2 ^ 31) ≤ n) (h2 : n < 2 ^ 31) :
    toInt32 (u32 n) = n := by unfold toInt32 u32; omega

lemma toInt32_ofNat_small (k : Nat) (h : k < 2 ^ 31) :
    int32ofNat k = (k : Int) := by unfold int32ofNat toInt32; omega

/-! ## Helper lemmas: `setInt` / `getInt` -/

lemma setInt_eq_of_le (buf : List Nat) (o n : Int)
    (ho : 0 ≤ o) (hb : o + 4 ≤ (buf.length : Int)) :
    Page.setInt o n buf =
      some ((((buf.set o.toNat (u32 n / 2 ^ 24 % 256)).set (o.toNat + 1)
        (u32 n / 2 ^ 16 % 256)).set (o.toNat + 2) (u32 n / 2 ^ 8 % 256)).set
        (o.toNat + 3) (u32 n % 256)) := by
  simp only [Page.setInt]
  rw [if_pos ⟨ho, hb⟩]

lemma getInt_eq_of_le (buf : List Nat) (o : Int)
    (ho : 0 ≤ o) (hb : o + 4 ≤ (buf.length : Int)) :
    Page.getInt o buf =
      some (toInt32 (buf.getD o.toNat 0 * 2 ^ 24 + buf.getD (o.toNat + 1) 0 * 2 ^ 16 +
        buf.getD (o.toNat + 2) 0 * 2 ^ 8 + buf.getD (o.toNat + 3) 0)) := by
  simp only [Page.getInt]
  rw [if_pos ⟨ho, hb⟩]

lemma setInt_bounds (buf buf1 : List Nat) (o n : Int)
    (h : Page.setInt o n buf = some buf1) :
    0 ≤ o ∧ o + 4 ≤ (buf.length : Int) := by
  by_contra hc
  simp only [Page.setInt, if_neg hc] at h
  exact Option.noConfusion h

lemma setInt_length (buf buf1 : List Nat) (o n : Int)
    (h : Page.setInt o n buf = some buf1) : buf1.length = buf.length := by
  obtain ⟨ho, hb⟩ := setInt_bounds buf buf1 o n h
  rw [setInt_eq_of_le buf o n ho hb] at h
  injection h with h
  rw [← h]
  simp only [List.length_set]

lemma getInt_after_setInt (buf buf1 : List Nat) (o n : Int)
    (h : Page.setInt o n buf = some buf1) :
    Page.getInt o buf1 = some (toInt32 (u32 n)) := by
  obtain ⟨ho, hb⟩ := setInt_bounds buf buf1 o n h
  have hk : o.toNat + 4 ≤ buf.length := by omega
  have hlen : buf1.length = buf.length := setInt_length buf buf1 o n h
  rw [setInt_eq_of_le buf o n ho hb] at h
  injection h with h
  have hD0 : buf1.getD o.toNat 0 = u32 n / 2 ^ 24 % 256 := by
    rw [← h, getD_set_ne _ _ _ _ (by omega), getD_set_ne _ _ _ _ (by omega),
      getD_set_ne _ _ _ _ (by omega)]
    exact getD_set_self _ _ _ (by omega)
  have hD1 : buf1.getD (o.toNat + 1) 0 = u32 n / 2 ^ 16 % 256 := by
    rw [← h, getD_set_ne _ _ _ _ (by omega), getD_set_ne _ _ _ _ (by omega)]
    exact getD_set_self _ _ _ (by simp only [List.length_set]; omega)
  have hD2 : buf1.getD (o.toNat + 2) 0 = u32 n / 2 ^ 8 % 256 := by
    rw [← h, getD_set_ne _ _ _ _ (by omega)]
    exact getD_set_self _ _ _ (by simp only [List.length_set]; omega)
  have hD3 : buf1.getD (o.toNat + 3) 0 = u32 n % 256 := by
    rw [← h]
    exact getD_set_self _ _ _ (by simp only [List.length_set]; omega)
  rw [getInt_eq_of_le buf1 o ho (by rw [hlen]; exact hb)]
  rw [hD0, hD1, hD2, hD3, bytes_recombine _ (u32_lt n)]

lemma setInt_frame (buf buf1 : List Nat) (o n : Int) (j : Nat)
    (h : Page.setInt o n buf = some buf1)
    (hj : j < o.toNat ∨ o.toNat + 4 ≤ j) :
    buf1.getD j 0 = buf.getD j 0 := by
  obtain ⟨ho, hb⟩ := setInt_bounds buf buf1 o n h
  rw [setInt_eq_of_le buf o n ho hb] at h
  injection h with h
  rw [← h, getD_set_ne _ _ _ _ (by omega), getD_set_ne _ _ _ _ (by omega),
    getD_set_ne _ _ _ _ (by omega), getD_set_ne _ _ _ _ (by omega)]

/-- `getInt` reads only the four bytes at `offset`: buffers of the same
length that agree there give the same result. -/
lemma getInt_congr4 (buf buf' : List Nat) (o : Int)
    (hlen : buf'.length = buf.length)
    (h0 : buf'.getD o.toNat 0 = buf.getD o.toNat 0)
    (h1 : buf'.getD (o.toNat + 1) 0 = buf.getD (o.toNat + 1) 0)
    (h2 : buf'.getD (o.toNat + 2) 0 = buf.getD (o.toNat + 2) 0)
    (h3 : buf'.getD (o.toNat + 3) 0 = buf.getD (o.toNat + 3) 0) :
    Page.getInt o buf' = Page.getInt o buf := by
  simp only [Page.getInt, hlen, h0, h1, h2, h3]

/-! ## Helper lemmas: `setBytes` / `getBytes` -/

lemma setBytes_inv (buf buf' bs : List Nat) (o : Int) (hsz : bs.length < 2 ^ 31)
    (h : Page.setBytes o bs buf = some buf') :
    ∃ buf1, Page.setInt o (int32ofNat bs.length) buf = some buf1 ∧
      0 ≤ o ∧ o + 4 + (bs.length : Int) ≤ (buf.length : Int) ∧
      buf' = buf1.take (o.toNat + 4) ++ bs ++ buf1.drop (o.toNat + 4 + bs.length) := by
  have hn : int32ofNat bs.length = (bs.length : Int) := toInt32_ofNat_small _ hsz
  simp only [Page.setBytes, Option.bind_eq_some] at h
  obtain ⟨buf1, hset, hif⟩ := h
  by_cases hc : 0 ≤ int32ofNat bs.length ∧
      o + 4 + int32ofNat bs.length ≤ (buf.length : Int)
  · rw [if_pos hc] at hif
    injection hif with hif
    refine ⟨buf1, hset, (setInt_bounds _ _ _ _ hset).1, by rw [← hn]; exact hc.2, ?_⟩
    rw [← hif, hn]
    simp [List.take_length]
  · rw [if_neg hc] at hif
    exact Option.noConfusion hif

lemma getD_append_right (A rest : List Nat) (j : Nat) (h : A.length ≤ j) :
    (A ++ rest).getD j 0 = rest.getD (j - A.length) 0 := by
  simp [List.getD_eq_getElem?_getD, List.getElem?_append_right h]

lemma length_take_of_le (l : List Nat) (n : Nat) (h : n ≤ l.length) :
    (l.take n).length = n := by
  simp [List.length_take]; omega

lemma setBytes_eq_of_le (buf bs : List Nat) (o : Int)
    (ho : 0 ≤ o) (hb : o + 4 + (bs.length : Int) ≤ (buf.length : Int))
    (hsz : bs.length < 2 ^ 31) :
    ∃ buf1, Page.setInt o (int32ofNat bs.length) buf = some buf1 ∧
      Page.setBytes o bs buf =
        some (buf1.take (o.toNat + 4) ++ bs ++ buf1.drop (o.toNat + 4 + bs.length)) := by
  have hn : int32ofNat bs.length = (bs.length : Int) := toInt32_ofNat_small _ hsz
  have hb4 : o + 4 ≤ (buf.length : Int) := by
    have : (0 : Int) ≤ (bs.length : Int) := Int.natCast_nonneg _
    omega
  refine ⟨_, setInt_eq_of_le buf o _ ho hb4, ?_⟩
  simp only [Page.setBytes, setInt_eq_of_le buf o _ ho hb4, Option.some_bind]
  rw [if_pos ⟨by rw [hn]; exact Int.natCast_nonneg _, by rw [hn]; exact hb⟩, hn]
  simp [List.take_length]

/-! ## Claim theorems: Page accessors -/

/-- C5: for every page buffer, every offset `o` with
`0 ≤ o` and `o + 4 ≤ block_size`, and every 32-bit signed integer `n`,
`setInt o n` followed by `getInt o` returns exactly `n`. -/
theorem setInt_then_getInt (buf : List Nat) (o n : Int)
    (ho : 0 ≤ o) (hb : o + 4 ≤ (buf.length : Int))
    (hn1 : -(2 ^ 31) ≤ n) (hn2 : n < 2 ^ 31) :
    (Page.setInt o n buf).bind (Page.getInt o) = some n := by
  rw [setInt_eq_of_le buf o n ho hb, Option.some_bind]
  rw [getInt_after_setInt buf _ o n (setInt_eq_of_le buf o n ho hb)]
  rw [toInt32_u32 n hn1 hn2]

/-- Witness for C5 at a concrete input. -/
theorem setInt_then_getInt_witness :
    (Page.setInt 2 (-5) (List.replicate 8 0)).bind (Page.getInt 2) = some (-5) :=
  setInt_then_getInt (List.replicate 8 0) 2 (-5) (by decide) (by decide)
    (by decide) (by decide)

/-- C6: for every page buffer, offset `o ≥ 0`, and byte sequence `bs`
with `o + 4 + len bs ≤ block_size` (the length must be representable in
the 4-byte signed length field), `setBytes o bs` followed by
`getBytes o` returns exactly `bs`; the same holds for the string
wrappers under the equivalent bound `o + maxLength bs ≤ block_size`. -/
theorem setBytes_then_getBytes (buf bs : List Nat) (o : Int)
    (ho : 0 ≤ o) (hb : o + 4 + (bs.length : Int) ≤ (buf.length : Int))
    (hsz : bs.length < 2 ^ 31) :
    (Page.setBytes o bs buf).bind (Page.getBytes o) = some bs ∧
    (o + Page.maxLength bs ≤ (buf.length : Int) →
      (Page.setString o bs buf).bind (Page.getString o) = some bs) := by
  obtain ⟨buf1, hset, heq⟩ := setBytes_eq_of_le buf bs o ho hb hsz
  have hlen1 : buf1.length = buf.length := setInt_length _ _ _ _ hset
  have hk : o.toNat + 4 + bs.length ≤ buf.length := by omega
  have hA : (buf1.take (o.toNat + 4)).length = o.toNat + 4 :=
    length_take_of_le _ _ (by omega)
  have hlen2 :
      (buf1.take (o.toNat + 4) ++ bs ++ buf1.drop (o.toNat + 4 + bs.length)).length
        = buf.length := by
    simp only [List.length_append, hA, List.length_drop, hlen1]
    omega
  have hagree : ∀ i, i < 4 →
      (buf1.take (o.toNat + 4) ++ bs ++
        buf1.drop (o.toNat + 4 + bs.length)).getD (o.toNat + i) 0
        = buf1.getD (o.toNat + i) 0 := by
    intro i hi
    rw [getD_append_left _ _ _ (by rw [List.length_append, hA]; omega)]
    rw [getD_append_left _ _ _ (by rw [hA]; omega)]
    exact getD_take _ _ _ (by omega)
  have hgi : Page.getInt o
      (buf1.take (o.toNat + 4) ++ bs ++ buf1.drop (o.toNat + 4 + bs.length))
        = some ((bs.length : Int)) := by
    rw [getInt_congr4 buf1 _ o (by rw [hlen2, hlen1])
      (by simpa using hagree 0 (by norm_num)) (hagree 1 (by norm_num))
      (hagree 2 (by norm_num)) (hagree 3 (by norm_num))]
    rw [getInt_after_setInt buf buf1 o _ hset]
    rw [toInt32_ofNat_small _ hsz, toInt32_u32]
    · omega
    · omega
  have main : (Page.setBytes o bs buf).bind (Page.getBytes o) = some bs := by
    rw [heq, Option.some_bind]
    simp only [Page.getBytes, hgi, Option.some_bind]
    rw [if_pos ⟨Int.natCast_nonneg _, by rw [hlen2]; exact hb⟩]
    rw [Int.toNat_natCast]
    rw [List.append_assoc, List.drop_left' hA, List.take_left]
  exact ⟨main, fun _ => main⟩

/-- Witness for C6 at a concrete input. -/
theorem setBytes_then_getBytes_witness :
    (Page.setBytes 1 [7, 8] (List.replicate 9 3)).bind (Page.getBytes 1) = some [7, 8] ∧
    (Page.setString 1 [7, 8] (List.replicate 9 3)).bind (Page.getString 1) = some [7, 8] := by
  have h := setBytes_then_getBytes (List.replicate 9 3) [7, 8] 1
    (by decide) (by decide) (by decide)
  exact ⟨h.1, h.2 (by decide)⟩

/-- Frame part of C10 for `setBytes`, shared shape of the two
byte-writing conjuncts. -/
lemma setBytes_frame (buf buf' bs : List Nat) (o : Int) (j : Nat)
    (hsz : bs.length < 2 ^ 31) (h : Page.setBytes o bs buf = some buf') :
    buf'.length = buf.length ∧
      ((j < o.toNat ∨ o.toNat + 4 + bs.length ≤ j) → buf'.getD j 0 = buf.getD j 0) := by
  obtain ⟨buf1, hset, ho, hb, heq⟩ := setBytes_inv buf buf' bs o hsz h
  have hlen1 : buf1.length = buf.length := setInt_length _ _ _ _ hset
  have hk : o.toNat + 4 + bs.length ≤ buf.length := by omega
  have hA : (buf1.take (o.toNat + 4)).length = o.toNat + 4 :=
    length_take_of_le _ _ (by omega)
  constructor
  · rw [heq]
    simp only [List.length_append, hA, List.length_drop, hlen1]
    omega
  · intro hj
    rcases hj with hj | hj
    · rw [heq, getD_append_left _ _ _ (by rw [List.length_append, hA]; omega),
        getD_append_left _ _ _ (by rw [hA]; omega),
        getD_take _ _ _ (by omega)]
      exact setInt_frame buf buf1 o _ j hset (Or.inl hj)
    · rw [heq, getD_append_right _ _ _ (by rw [List.length_append, hA]; omega),
        getD_drop]
      have harith : o.toNat + 4 + bs.length +
          (j - (buf1.take (o.toNat + 4) ++ bs).length) = j := by
        rw [List.length_append, hA]; omega
      rw [harith]
      exact setInt_frame buf buf1 o _ j hset (Or.inr (by omega))

/-- C10: an in-bounds `setInt o n` changes only the four bytes at
indices `[o, o+4)` of the page buffer, and an in-bounds
`setBytes o bs` (hence `setString`) changes only the bytes at indices
`[o, o + 4 + len bs)`; the buffer keeps its length and every byte
outside the written range keeps its previous value. -/
theorem setters_touch_only_written_range (buf bs buf' : List Nat) (o n : Int)
    (j : Nat) (hsz : bs.length < 2 ^ 31) :
    (Page.setInt o n buf = some buf' →
      buf'.length = buf.length ∧
        ((j < o.toNat ∨ o.toNat + 4 ≤ j) → buf'.getD j 0 = buf.getD j 0)) ∧
    (Page.setBytes o bs buf = some buf' →
      buf'.length = buf.length ∧
        ((j < o.toNat ∨ o.toNat + 4 + bs.length ≤ j) → buf'.getD j 0 = buf.getD j 0)) ∧
    (Page.setString o bs buf = some buf' →
      buf'.length = buf.length ∧
        ((j < o.toNat ∨ o.toNat + 4 + bs.length ≤ j) → buf'.getD j 0 = buf.getD j 0)) := by
  refine ⟨fun h => ⟨setInt_length _ _ _ _ h, fun hj => setInt_frame _ _ _ _ _ h hj⟩,
    fun h => setBytes_frame buf buf' bs o j hsz h,
    fun h => setBytes_frame buf buf' bs o j hsz h⟩

/-- Witness for C10 at a concrete input. -/
theorem setters_touch_only_written_range_witness :
    Page.setInt 1 300 [9, 9, 9, 9, 9, 9] = some [9, 0, 0, 1, 44, 9] ∧
    ([9, 0, 0, 1, 44, 9] : List Nat).getD 5 0 = ([9, 9, 9, 9, 9, 9] : List Nat).getD 5 0 := by
  have h := (setters_touch_only_written_range [9, 9, 9, 9, 9, 9] []
    [9, 0, 0, 1, 44, 9] 1 300 5 (by decide)).1 (by decide)
  exact ⟨by decide, h.2 (by decide)⟩

/-- C2 counterexample: the claim is false for `setBytes` payloads whose
length wraps in the `int32(len(bs))` conversion.  On an ordinary page
(8 bytes here; any block size behaves the same), `setBytes 0 bs` with
`len bs = 2 ^ 32` addresses the range `[0, 4 + 2 ^ 32)` — far outside
the page — yet the wrapped length field is `int32(2 ^ 32) = 0`, every
slice bound passes, and the call SUCCEEDS, writing a zero length field
and none of the payload: silent truncation instead of a bounds error.
Reading the field back yields the empty payload. -/
theorem setBytes_wrapped_length_silently_truncates :
    Page.setBytes 0 (List.replicate (2 ^ 32) 1) (List.replicate 8 0)
      = some (List.replicate 8 0) ∧
    (Page.setBytes 0 (List.replicate (2 ^ 32) 1) (List.replicate 8 0)).bind
        (Page.getBytes 0) = some [] := by
  have hbig : (List.replicate (2 ^ 32) (1 : Nat)).length = 2 ^ 32 :=
    List.length_replicate _ _
  have hn2 : int32ofNat (2 ^ 32) = 0 := by
    unfold int32ofNat toInt32
    norm_num
  have hset : Page.setInt 0 0 (List.replicate 8 0) = some (List.replicate 8 0) := by
    decide
  have hsb : Page.setBytes 0 (List.replicate (2 ^ 32) 1) (List.replicate 8 0)
      = some (List.replicate 8 0) := by
    simp only [Page.setBytes, hbig, hn2]
    rw [hset, Option.some_bind]
    rw [if_pos (by norm_num)]
    rw [Int.toNat_zero, List.take_zero, List.append_nil]
    simp [List.take_append_drop]
  refine ⟨hsb, ?_⟩
  rw [hsb, Option.some_bind]
  decide

/-- C2, amended: every accessor whose addressed byte range is not
fully inside `[0, block_size)` fails (the Go runtime panic on the
out-of-range slice operation, before any out-of-range byte is read or
written, modelled as `none`) — except that for `setBytes`/`setString`
the range deciding failure is computed from the WRAPPED 32-bit length
field `n = int32(len bs)`:
* `setInt` / `getInt` fail when `¬(0 ≤ o ∧ o + 4 ≤ block_size)`, and so
  do `getBytes` / `getString`, whose length field lies in that range;
* `setBytes` / `setString` fail exactly outside the wrapped guard,
  i.e. when `¬(0 ≤ o ∧ 0 ≤ n ∧ o + 4 + n ≤ block_size)`;
* for `len bs < 2 ^ 31` the wrapped guard coincides with the claimed
  range `[o, o + 4 + len bs)`, recovering the claim as stated;
* when the wrapped guard holds the call SUCCEEDS — for `len bs ≥ 2 ^ 31`
  whose wrap lands in `[0, 2 ^ 31)` this silently truncates the payload
  instead of failing (see the counterexample);
* `getBytes` / `getString` fail when the decoded 4-byte length `m`
  declares a payload running outside the buffer
  (`m < 0` or `o + 4 + m > block_size`). -/
theorem accessors_out_of_bounds_fail (buf bs : List Nat) (o n : Int) :
    (¬(0 ≤ o ∧ o + 4 ≤ (buf.length : Int)) →
      Page.setInt o n buf = none ∧ Page.getInt o buf = none ∧
      Page.getBytes o buf = none ∧ Page.getString o buf = none) ∧
    (¬(0 ≤ o ∧ 0 ≤ int32ofNat bs.length ∧
        o + 4 + int32ofNat bs.length ≤ (buf.length : Int)) →
      Page.setBytes o bs buf = none ∧ Page.setString o bs buf = none) ∧
    (bs.length < 2 ^ 31 →
      ¬(0 ≤ o ∧ o + 4 + (bs.length : Int) ≤ (buf.length : Int)) →
      Page.setBytes o bs buf = none ∧ Page.setString o bs buf = none) ∧
    (0 ≤ o ∧ 0 ≤ int32ofNat bs.length ∧
        o + 4 + int32ofNat bs.length ≤ (buf.length : Int) →
      Page.setBytes o bs buf ≠ none) ∧
    (∀ m : Int, Page.getInt o buf = some m →
      ¬(0 ≤ m ∧ o + 4 + m ≤ (buf.length : Int)) →
      Page.getBytes o buf = none ∧ Page.getString o buf = none) := by
  have hgen : ¬(0 ≤ o ∧ 0 ≤ int32ofNat bs.length ∧
      o + 4 + int32ofNat bs.length ≤ (buf.length : Int)) →
      Page.setBytes o bs buf = none := by
    intro h
    by_cases hc : 0 ≤ o ∧ o + 4 ≤ (buf.length : Int)
    · simp only [Page.setBytes, setInt_eq_of_le buf o _ hc.1 hc.2, Option.some_bind]
      rw [if_neg]
      intro hcontra
      exact h ⟨hc.1, hcontra.1, hcontra.2⟩
    · simp only [Page.setBytes]
      rw [show Page.setInt o (int32ofNat bs.length) buf = none from by
        simp only [Page.setInt, if_neg hc]]
      rfl
  refine ⟨fun h => ?_, fun h => ⟨hgen h, hgen h⟩, fun hsz h => ?_, fun h => ?_,
    fun m hm h => ?_⟩
  · have hs : Page.setInt o n buf = none := by
      simp only [Page.setInt, if_neg h]
    have hg : Page.getInt o buf = none := by
      simp only [Page.getInt, if_neg h]
    have hgb : Page.getBytes o buf = none := by
      simp only [Page.getBytes, hg, Option.none_bind]
    exact ⟨hs, hg, hgb, hgb⟩
  · have hn : int32ofNat bs.length = (bs.length : Int) := toInt32_ofNat_small _ hsz
    have h2 : ¬(0 ≤ o ∧ 0 ≤ int32ofNat bs.length ∧
        o + 4 + int32ofNat bs.length ≤ (buf.length : Int)) := by
      rw [hn]
      intro hcontra
      exact h ⟨hcontra.1, hcontra.2.2⟩
    exact ⟨hgen h2, hgen h2⟩
  · obtain ⟨ho, hn0, hb⟩ := h
    have hb4 : o + 4 ≤ (buf.length : Int) := by omega
    simp only [Page.setBytes, setInt_eq_of_le buf o _ ho hb4, Option.some_bind]
    rw [if_pos ⟨hn0, hb⟩]
    exact Option.some_ne_none _
  · have hgb : Page.getBytes o buf = none := by
      simp only [Page.getBytes, hm, Option.some_bind, if_neg h]
    exact ⟨hgb, hgb⟩

/-- Witness for C2 at concrete inputs: a `setInt` whose range starts
below 0; a `setBytes` and a `setString` whose ranges run past the end
of the page (both via the wrapped guard and via the claim-shaped
special case); an in-bounds `setBytes` that succeeds; and a `getBytes`
whose stored length field (200) runs past the end of a 5-byte page. -/
theorem accessors_out_of_bounds_fail_witness :
    Page.setInt (-1) 0 [0, 0, 0, 0] = none ∧
    Page.setBytes 0 [7, 8] [0, 0, 0, 0, 0] = none ∧
    Page.setString 0 [9] [0, 0, 0, 0] = none ∧
    Page.setBytes 3 [7] [0, 0, 0, 0, 0, 0, 0, 0] ≠ none ∧
    Page.getBytes 0 [0, 0, 0, 200, 3] = none := by
  refine ⟨((accessors_out_of_bounds_fail [0, 0, 0, 0] [] (-1) 0).1 (by decide)).1,
    ((accessors_out_of_bounds_fail [0, 0, 0, 0, 0] [7, 8] 0 0).2.1 (by decide)).1,
    ((accessors_out_of_bounds_fail [0, 0, 0, 0] [9] 0 0).2.2.1 (by decide)
      (by decide)).2,
    (accessors_out_of_bounds_fail [0, 0, 0, 0, 0, 0, 0, 0] [7] 3 0).2.2.2.1
      (by decide),
    ((accessors_out_of_bounds_fail [0, 0, 0, 200, 3] [] 0 0).2.2.2.2 200 (by decide)
      (by decide)).1⟩

/-! ## Helper lemmas: FileManager -/

lemma fupdate_self (m : String → Option (List Nat)) (k : String)
    (v : Option (List Nat)) : fupdate m k v k = v := by
  simp [fupdate]

lemma getFile_openFiles_mem (f : String) (s : FMState) :
    f ∈ (FileManager.getFile f s).openFiles := by
  by_cases h : f ∈ s.openFiles <;> simp [FileManager.getFile, h]

lemma getFile_of_mem (f : String) (s : FMState) (h : f ∈ s.openFiles) :
    FileManager.getFile f s = s := by
  simp [FileManager.getFile, h]

lemma getFile_blocksize (f : String) (s : FMState) :
    (FileManager.getFile f s).blocksize = s.blocksize := by
  unfold FileManager.getFile
  split <;> rfl

lemma getFile_getFile (f : String) (s : FMState) :
    FileManager.getFile f (FileManager.getFile f s) = FileManager.getFile f s :=
  getFile_of_mem f _ (getFile_openFiles_mem f s)

lemma fileWriteAt_length (c : List Nat) (off : Nat) (d : List Nat) :
    (FileManager.fileWriteAt c off d).length = max c.length (off + d.length) := by
  simp only [FileManager.fileWriteAt, List.length_append, List.length_take,
    List.length_replicate, List.length_drop]
  omega

lemma fileWriteAt_drop (c : List Nat) (off : Nat) (d : List Nat) :
    (FileManager.fileWriteAt c off d).drop off = d ++ c.drop (off + d.length) := by
  unfold FileManager.fileWriteAt
  rw [List.append_assoc]
  exact List.drop_left' (by simp only [List.length_append, List.length_take,
    List.length_replicate]; omega)

lemma div_mul_bound (L B : Nat) (hB : 0 < B) :
    L / B * B ≤ L ∧ L < L / B * B + B := by
  refine ⟨Nat.div_mul_le_self L B, ?_⟩
  calc L = B * (L / B) + L % B := (Nat.div_add_mod L B).symm
  _ < B * (L / B) + B := Nat.add_lt_add_left (Nat.mod_lt L hB) _
  _ = L / B * B + B := by rw [Nat.mul_comm]

lemma length_eq_of_open (f : String) (s : FMState) (h : f ∈ s.openFiles) :
    FileManager.length f s = (((s.contents f).getD []).length / s.blocksize, s) := by
  unfold FileManager.length
  rw [getFile_of_mem f s h]

lemma length_mk_of_open (bs : Nat) (ofs : List String)
    (cts : String → Option (List Nat)) (f : String) (h : f ∈ ofs) :
    FileManager.length f ⟨bs, ofs, cts⟩
      = (((cts f).getD []).length / bs, ⟨bs, ofs, cts⟩) := by
  unfold FileManager.length
  rw [getFile_of_mem f ⟨bs, ofs, cts⟩ h]

/-! ## Claim theorems: FileManager -/

/-- C7: `append f` returns a `BlockID` whose filename is `f` and whose
block number is `length f` measured immediately before the call, and
`length f` measured immediately after equals that block number plus
one: each append grows the file by exactly one block. -/
theorem append_block_number (s : FMState) (f : String) (hbs : 0 < s.blocksize) :
    (FileManager.append f s).1.filename = f ∧
    (FileManager.append f s).1.blknum = (FileManager.length f s).1 ∧
    (FileManager.length f (FileManager.append f s).2).1
      = (FileManager.length f s).1 + 1 := by
  refine ⟨rfl, rfl, ?_⟩
  have happ : (FileManager.append f s).2 =
      (⟨(FileManager.getFile f s).blocksize, (FileManager.getFile f s).openFiles,
        fupdate (FileManager.getFile f s).contents f
          (some (FileManager.fileWriteAt (((FileManager.getFile f s).contents f).getD [])
            ((((FileManager.getFile f s).contents f).getD []).length /
                (FileManager.getFile f s).blocksize * (FileManager.getFile f s).blocksize)
            (List.replicate (FileManager.getFile f s).blocksize 0)))⟩ : FMState) := by
    simp only [FileManager.append, FileManager.length, getFile_getFile]
  rw [happ, length_mk_of_open _ _ _ f (getFile_openFiles_mem f s)]
  simp only [FileManager.length, fupdate_self, Option.getD_some, fileWriteAt_length,
    List.length_replicate, getFile_blocksize]
  set L := (((FileManager.getFile f s).contents f).getD []).length with hL
  set B := s.blocksize with hB
  obtain ⟨h1, h2⟩ := div_mul_bound L B hbs
  rw [Nat.max_eq_right (Nat.le_of_lt h2)]
  rw [show L / B * B + B = (L / B + 1) * B by ring]
  exact Nat.mul_div_cancel _ hbs

/-- Witness for C7: a fresh manager over an empty directory with block
size 2; the first append to file a returns block 0 and the length goes
from 0 to 1. -/
theorem append_block_number_witness :
    (FileManager.append "a" ⟨2, [], fun _ => none⟩).1.filename = "a" ∧
    (FileManager.append "a" ⟨2, [], fun _ => none⟩).1.blknum
      = (FileManager.length "a" ⟨2, [], fun _ => none⟩).1 ∧
    (FileManager.length "a" (FileManager.append "a" ⟨2, [], fun _ => none⟩).2).1
      = (FileManager.length "a" ⟨2, [], fun _ => none⟩).1 + 1 :=
  append_block_number ⟨2, [], fun _ => none⟩ "a" (by decide)

/-- Unfolding equation for `append`. -/
lemma append_eq (f : String) (s : FMState) :
    FileManager.append f s =
      (⟨f, (((FileManager.getFile f s).contents f).getD []).length /
          (FileManager.getFile f s).blocksize⟩,
       ⟨(FileManager.getFile f s).blocksize, (FileManager.getFile f s).openFiles,
        fupdate (FileManager.getFile f s).contents f
          (some (FileManager.fileWriteAt (((FileManager.getFile f s).contents f).getD [])
            ((((FileManager.getFile f s).contents f).getD []).length /
                (FileManager.getFile f s).blocksize * (FileManager.getFile f s).blocksize)
            (List.replicate (FileManager.getFile f s).blocksize 0)))⟩) := by
  simp only [FileManager.append, FileManager.length, getFile_getFile]

/-- Unfolding equation for `read` at a state whose handle for the
addressed file is already open. -/
lemma read_mk_of_open (bs : Nat) (ofs : List String)
    (cts : String → Option (List Nat)) (f : String) (bn plen : Nat) (h : f ∈ ofs) :
    FileManager.read ⟨f, bn⟩ plen ⟨bs, ofs, cts⟩
      = (if bn * bs + plen ≤ ((cts f).getD []).length
          then (some ((((cts f).getD []).drop (bn * bs)).take plen),
            (⟨bs, ofs, cts⟩ : FMState))
          else (none, ⟨bs, ofs, cts⟩)) := by
  unfold FileManager.read
  rw [getFile_of_mem f ⟨bs, ofs, cts⟩ h]

/-- Unfolding equation for `write`. -/
lemma write_eq (blk : BlockID) (pbuf : List Nat) (s : FMState) :
    FileManager.write blk pbuf s =
      ⟨(FileManager.getFile blk.filename s).blocksize,
       (FileManager.getFile blk.filename s).openFiles,
       fupdate (FileManager.getFile blk.filename s).contents blk.filename
         (some (FileManager.fileWriteAt
           (((FileManager.getFile blk.filename s).contents blk.filename).getD [])
           (blk.blknum * (FileManager.getFile blk.filename s).blocksize) pbuf))⟩ := rfl

/-- C8: a block just returned by `append f`, read back (into a page of
`block_size` bytes) with no intervening write, contains exactly
`block_size` zero bytes. -/
theorem append_then_read_zeros (s : FMState) (f : String) (hbs : 0 < s.blocksize) :
    (FileManager.read (FileManager.append f s).1 s.blocksize
        (FileManager.append f s).2).1
      = some (List.replicate s.blocksize 0) := by
  rw [append_eq]
  rw [read_mk_of_open _ _ _ f _ _ (getFile_openFiles_mem f s)]
  simp only [fupdate_self, Option.getD_some, getFile_blocksize]
  set B := s.blocksize with hB
  set c := ((FileManager.getFile f s).contents f).getD [] with hc
  set L := c.length with hL
  obtain ⟨h1, h2⟩ := div_mul_bound L B hbs
  have hclen : (FileManager.fileWriteAt c (L / B * B) (List.replicate B 0)).length
      = L / B * B + B := by
    rw [fileWriteAt_length, List.length_replicate]
    exact Nat.max_eq_right (Nat.le_of_lt h2)
  rw [if_pos (by rw [hclen])]
  rw [fileWriteAt_drop]
  rw [List.take_left' (List.length_replicate _ _)]

/-- Witness for C8: on a fresh manager with block size 2, the appended
block 0 of file a reads back as two zero bytes. -/
theorem append_then_read_zeros_witness :
    (FileManager.read (FileManager.append "a" ⟨2, [], fun _ => none⟩).1 2
        (FileManager.append "a" ⟨2, [], fun _ => none⟩).2).1
      = some (List.replicate 2 0) :=
  append_then_read_zeros ⟨2, [], fun _ => none⟩ "a" (by decide)

/-- C9: `write blk p` immediately followed by `read blk p2`, both pages
of size `block_size`, makes `p2`'s buffer byte-identical to `p`'s. -/
theorem write_then_read (s : FMState) (blk : BlockID) (pbuf : List Nat)
    (hp : pbuf.length = s.blocksize) :
    (FileManager.read blk s.blocksize (FileManager.write blk pbuf s)).1
      = some pbuf := by
  obtain ⟨f, bn⟩ := blk
  rw [write_eq]
  simp only
  rw [read_mk_of_open _ _ _ f bn _ (getFile_openFiles_mem f s)]
  simp only [fupdate_self, Option.getD_some, getFile_blocksize]
  set B := s.blocksize with hB
  set c := ((FileManager.getFile f s).contents f).getD [] with hc
  have hclen : (FileManager.fileWriteAt c (bn * B) pbuf).length
      = max c.length (bn * B + B) := by
    rw [fileWriteAt_length, hp]
  rw [if_pos (by rw [hclen]; exact Nat.le_max_right _ _)]
  rw [fileWriteAt_drop]
  rw [List.take_left' hp]

/-- Witness for C9: writing the page [5, 6] to block 3 of file b on a
fresh manager with block size 2 and reading it back returns [5, 6]. -/
theorem write_then_read_witness :
    (FileManager.read ⟨"b", 3⟩ 2
        (FileManager.write ⟨"b", 3⟩ [5, 6] ⟨2, [], fun _ => none⟩)).1
      = some [5, 6] :=
  write_then_read ⟨2, [], fun _ => none⟩ ⟨"b", 3⟩ [5, 6] (by decide)

/-! ## Claim theorems: divergences between code and spec -/

/-- C1 (code bug): `getFile` opens with `os.Create`, which truncates a
pre-existing file. Over a directory holding a file named data of 400
bytes (exactly one block of block size 400) and a manager with no
cached handles, the first operation that references data — here
`length` — truncates it: the reported length is 0 blocks (the prior
length was 1 block) and the file's contents become empty. -/
theorem getFile_first_open_truncates :
    (FileManager.length "data"
        ⟨400, [],
          fun g => if g = "data" then some (List.replicate 400 7) else none⟩).1 = 0 ∧
    (FileManager.getFile "data"
        ⟨400, [],
          fun g => if g = "data" then some (List.replicate 400 7) else none⟩).contents
        "data" = some [] := by
  constructor
  · decide
  · decide

/-- C3 (code bug): `length` returns `int(stat.Size()) / blocksize` by
integer division, silently discarding the remainder; its return type
carries no error outcome at all. With file f already open holding 10
bytes (not block-aligned) and block size 400, it reports `10 / 400`
blocks instead of an invariant violation. -/
theorem length_discards_remainder :
    (FileManager.length "f"
        ⟨400, ["f"],
          fun g => if g = "f" then some (List.replicate 10 1) else none⟩).1
      = 10 / 400 := by decide

/-- C4 (code bug): when the first `os.Open` fails with not-exist,
`os.Mkdir` succeeds, and the re-open fails (its error is discarded by
the code), `newFileManager` returns `ok` with a nil directory handle —
a partially-initialized manager escapes to the caller instead of the
construction failing. -/
theorem newFileManager_returns_nil_directory :
    newFileManager (.error .notExist) (.ok ()) none 400
      = .ok ⟨none, 400, []⟩ := rfl
